import Mathlib

/-!
Shallow embedding of the Connect-4 AI core (board model, transposition
table, minimax search with alpha-beta pruning), translated from
`board.py`, `player.py`, `player_type.py`, `exceptions.py`,
`transposition_table.py` and `alpha_beta_pruning.py`, together with
theorems settling the specification claims.
-/

namespace Connect4

/-- `PlayerType` enum from `player_type.py`. -/
inductive PlayerType where
  | HUMAN : PlayerType
  | AI : PlayerType
deriving DecidableEq, Repr

/-- `Player` from `player.py`: symbol, color name and type.  Python's
`Player.__eq__` compares only the symbols; where the source compares
players (`cell == player` in `heuristic_value`) we model that comparison
by symbol equality (`Player.peq`). -/
structure Player where
  symbol : String
  color_name : String
  ptype : PlayerType
deriving DecidableEq, Repr

/-- `Player.__eq__` from `player.py`: equality is symbol equality. -/
def Player.peq (a b : Player) : Bool :=
  a.symbol == b.symbol

/-- The `Board` state from `board.py`: dimensions, the two players, the
active player index (0 or 1) and the grid (row-major; `none` = empty
cell). -/
structure Board where
  rows : Nat
  columns : Nat
  players : Player × Player
  active_player_index : Nat
  grid : List (List (Option Player))
deriving DecidableEq, Repr

/-- `Board.VICTORY_VALUE = 10 ** 8`. -/
def VICTORY_VALUE : Int := 10 ^ 8

/-- `Board.LOSS_VALUE = -VICTORY_VALUE`. -/
def LOSS_VALUE : Int := -VICTORY_VALUE

/-- `Board.SEQ_LENGTH = 4`. -/
def SEQ_LENGTH : Nat := 4

/-- Cell access `grid[r][c]`; out-of-range indices default to empty,
which matches the source because every access the embedded code makes is
within the source's loop ranges. -/
def cellAt (g : List (List (Option Player))) (r c : Nat) : Option Player :=
  (g.getD r []).getD c none

/-- `self.__players[self.__active_player_index]` (`Board.active_player`);
the index is 0 or 1 (`change_turn` toggles it via `1 - i`). -/
def Board.active_player (b : Board) : Player :=
  if b.active_player_index == 0 then b.players.1 else b.players.2

/-- `Board.player_1_is_active`. -/
def Board.player_1_is_active (b : Board) : Bool :=
  b.active_player_index == 0

/-- `Board.change_turn`: toggles the turn indicator between 0 and 1. -/
def Board.change_turn (b : Board) : Board :=
  { b with active_player_index := 1 - b.active_player_index }

/-- `Board.__column_is_full`: `self.__grid[0][column] is not None`. -/
def Board.column_is_full (b : Board) (column : Nat) : Bool :=
  (cellAt b.grid 0 column).isSome

/-- `Board.__check_for_draw`: every column is full. -/
def Board.check_for_draw (b : Board) : Bool :=
  (List.range b.columns).all fun column => b.column_is_full column

/-- The scan of `Board.__next_open_row`: starting from the bottom row
(`r - 1` when the argument is `r`) move up while the cell is occupied,
returning the first empty row from the bottom (`none` once all rows
0..r-1 are exhausted). -/
def openRowFrom (g : List (List (Option Player))) (c : Nat) : Nat → Option Nat
  | 0 => none
  | r + 1 => if (cellAt g r c).isSome then openRowFrom g c r else some r

/-- `Board.__next_open_row`: `none` if the column is full, else the first
empty row from the bottom. -/
def Board.next_open_row (b : Board) (column : Nat) : Option Nat :=
  if b.column_is_full column then none else openRowFrom b.grid column b.rows

/-- Write a single grid cell (`self.__grid[row][column] = ...`). -/
def setCell (g : List (List (Option Player))) (r c : Nat) (v : Option Player) :
    List (List (Option Player)) :=
  g.set r ((g.getD r []).set c v)

/-- The illegal-move exceptions of `exceptions.py`
(`ColumnFullException`, `ColumnOutOfBoundsException`), each carrying the
offending column. -/
inductive IllegalMove where
  | ColumnFull : Int → IllegalMove
  | ColumnOutOfBounds : Int → IllegalMove
deriving DecidableEq, Repr

/-- `Board.place_piece`.  Python raises before any mutation, so the
returned board equals the input board in both failure cases; on success
the active player's piece is written to the found row. -/
def Board.place_piece (b : Board) (column : Int) : Option IllegalMove × Board :=
  if column < 0 || (b.columns : Int) ≤ column then
    (some (.ColumnOutOfBounds column), b)
  else
    match b.next_open_row column.toNat with
    | none => (some (.ColumnFull column), b)
    | some row =>
        (none, { b with grid := setCell b.grid row column.toNat (some b.active_player) })

/-- The sort key of `Board.__column_search_order`:
`abs(x - self.__columns // 2)`. -/
def colDist (columns : Nat) (x : Nat) : Nat :=
  ((x : Int) - ((columns / 2 : Nat) : Int)).natAbs

/-- `Board.__column_search_order`: `sorted(range(columns), key=order)`
with `order x = abs(x - columns // 2)`.  Python's `sorted` is a stable
sort, and any two stable sorts agree on every input, so we model it
with the stable `List.insertionSort`. -/
def Board.column_search_order (b : Board) : List Nat :=
  (List.range b.columns).insertionSort fun x y => colDist b.columns x ≤ colDist b.columns y

/-- `Board.successors`: for each non-full column in search order, a copy
of the board with a piece placed in that column and the turn advanced.
The `place_piece` error branch is unreachable here: the column index is
in range and not full (see `C6`'s proof); yielding `none` there keeps
the definition total. -/
def Board.successors (b : Board) : List Board :=
  b.column_search_order.filterMap fun column =>
    if b.column_is_full column then none
    else
      match (b.place_piece (Int.ofNat column)) with
      | (some _, _) => none
      | (none, placed) => some placed.change_turn

/-- `Board.key`: the grid contents as nested tuples of cell symbols
(`None` for empty cells); the active-player index is not part of it. -/
def Board.key (b : Board) : List (List (Option String)) :=
  b.grid.map fun row => row.map fun cell => cell.map Player.symbol

/-- `count_symbol` from `Board.heuristic_value`:
`sum(cell == player for cell in cells if cell is not None)`, with `==`
the symbol comparison of `Player.__eq__`. -/
def count_symbol (player : Player) (cells : List (Option Player)) : Nat :=
  (cells.filterMap id).countP fun cell => cell.peq player

/-- `POINTS_BY_COUNT` from `Board.heuristic_value`: points for a group
given (own count, opponent count); any other combination scores 0. -/
def POINTS_BY_COUNT (p : Nat × Nat) : Int :=
  if p = (SEQ_LENGTH, 0) then 2 * VICTORY_VALUE
  else if p = (SEQ_LENGTH - 1, 0) then 300
  else if p = (SEQ_LENGTH - 2, 0) then 50
  else if p = (SEQ_LENGTH - 3, 0) then 10
  else 0

/-- `score_group` from `Board.heuristic_value`: the maximizing player's
advantage minus the minimizing player's advantage for one group. -/
def Board.score_group (b : Board) (group : List (Option Player)) : Int :=
  let count_max := count_symbol b.players.1 group
  let count_min := count_symbol b.players.2 group
  POINTS_BY_COUNT (count_max, count_min) - POINTS_BY_COUNT (count_min, count_max)

/-- The four families of groups scanned by `Board.heuristic_value`
(vertical, horizontal, diagonal down-right, diagonal down-left), in the
source's loop order.  Python's `range(rows - SEQ_LENGTH + 1)` is empty
when `rows < SEQ_LENGTH - 1`; writing `rows + 1 - SEQ_LENGTH` with
truncating `Nat` subtraction produces the same index sets. -/
def Board.windows (b : Board) : List (List (Option Player)) :=
  ((List.range (b.rows + 1 - SEQ_LENGTH)).flatMap fun row =>
    (List.range b.columns).map fun col =>
      (List.range SEQ_LENGTH).map fun i => cellAt b.grid (row + i) col)
  ++ ((List.range b.rows).flatMap fun row =>
    (List.range (b.columns + 1 - SEQ_LENGTH)).map fun col =>
      (List.range SEQ_LENGTH).map fun i => cellAt b.grid row (col + i))
  ++ ((List.range (b.rows + 1 - SEQ_LENGTH)).flatMap fun row =>
    (List.range (b.columns + 1 - SEQ_LENGTH)).map fun col =>
      (List.range SEQ_LENGTH).map fun i => cellAt b.grid (row + i) (col + i))
  ++ ((List.range (b.rows + 1 - SEQ_LENGTH)).flatMap fun row =>
    (List.range' (SEQ_LENGTH - 1) (b.columns - (SEQ_LENGTH - 1))).map fun col =>
      (List.range SEQ_LENGTH).map fun i => cellAt b.grid (row + i) (col - i))

/-- `Board.heuristic_value`: 0 on a drawn (all-columns-full) board,
otherwise the sum of the group scores over all scanned windows. -/
def Board.heuristic_value (b : Board) : Int :=
  if b.check_for_draw then 0
  else ((b.windows).map b.score_group).sum

/-- Modelled from the spec: the repository's `board.py` imports `Status`
from a `status` module that is not among the source files; the spec
describes it as the four-valued game status (first player wins, second
player wins, tie, ongoing). -/
inductive Status where
  | PLAYER_1_WINS : Status
  | PLAYER_2_WINS : Status
  | TIE : Status
  | ONGOING : Status
deriving DecidableEq, Repr

/-- `Board.status`: win thresholds against the victory sentinels first
(`value = heuristic_value()` inlined), then the draw check, otherwise
ongoing. -/
def Board.status (b : Board) : Status :=
  if VICTORY_VALUE ≤ b.heuristic_value then .PLAYER_1_WINS
  else if b.heuristic_value ≤ LOSS_VALUE then .PLAYER_2_WINS
  else if b.check_for_draw then .TIE
  else .ONGOING

/-- `Board.is_game_over`: the status is not ongoing. -/
def Board.is_game_over (b : Board) : Bool :=
  b.status != Status.ONGOING

/-! ### Search values

The search works with Python floats whose only non-integer inhabitants
here are `-math.inf` and `math.inf`; every heuristic value is an
integer.  `Ext` is the integers extended with the two infinities, with
Python's comparison, `max` and `min` semantics. -/

/-- An integer, `-math.inf`, or `math.inf`. -/
inductive Ext where
  | negInf : Ext
  | val : Int → Ext
  | posInf : Ext
deriving DecidableEq, Repr

/-- `<=` on extended values. -/
def Ext.le : Ext → Ext → Bool
  | .negInf, _ => true
  | _, .posInf => true
  | .posInf, _ => false
  | .val a, .val b => a ≤ b
  | .val _, .negInf => false

/-- `<` on extended values (total order, so `a < b` iff `not (b <= a)`). -/
def Ext.lt (a b : Ext) : Bool :=
  !(Ext.le b a)

/-- Python's `max(a, b)`: `a` unless `b` is strictly larger. -/
def Ext.maxE (a b : Ext) : Ext :=
  if Ext.le b a then a else b

/-- Python's `min(a, b)`: `a` unless `b` is strictly smaller. -/
def Ext.minE (a b : Ext) : Ext :=
  if Ext.le a b then a else b

/-! ### Transposition table (`transposition_table.py`) -/

/-- The type of `Board.key()` results. -/
abbrev BKey := List (List (Option String))

/-- `CacheEntry`: value, recorded best move, and the two bound flags. -/
structure CacheEntry where
  value : Ext
  best_move : Option Board
  min : Bool
  max : Bool
deriving DecidableEq, Repr

/-- `TranspositionTable`: an `OrderedDict` with bounded size.  The
entry list is kept in recency order, least-recently-used first (the
iteration order of the `OrderedDict`). -/
structure TranspositionTable where
  maxsize : Nat
  entries : List (BKey × CacheEntry)
deriving DecidableEq, Repr

/-- Plain lookup (the `OrderedDict` mapping, no reordering): the entry
stored for a key, if any. -/
def findEntry (t : TranspositionTable) (k : BKey) : Option CacheEntry :=
  (t.entries.find? fun p => p.1 == k).map fun p => p.2

/-- `key in table` (`__contains__`, no reordering). -/
def TranspositionTable.contains (t : TranspositionTable) (k : BKey) : Bool :=
  (findEntry t k).isSome

/-- `__getitem__`: on a hit, `move_to_end` the key and return its entry;
keys are unique in an `OrderedDict`, so removing every pair with this
key and appending the found entry is that reordering. -/
def TranspositionTable.get (t : TranspositionTable) (k : BKey) :
    Option CacheEntry × TranspositionTable :=
  match findEntry t k with
  | none => (none, t)
  | some e =>
      (some e, { t with entries := (t.entries.filter fun p => !(p.1 == k)) ++ [(k, e)] })

/-- `__setitem__`: an existing key is moved to the end, the value is
stored, and if the size now exceeds `maxsize` the oldest (first) entry
is deleted.  In both the existing- and new-key cases the table ends with
`(k, v)` last and the other pairs in their previous order. -/
def TranspositionTable.put (t : TranspositionTable) (k : BKey) (v : CacheEntry) :
    TranspositionTable :=
  let es := (t.entries.filter fun p => !(p.1 == k)) ++ [(k, v)]
  { t with entries := if t.maxsize < es.length then es.drop 1 else es }

/-! ### Search engine (`alpha_beta_pruning.py`) -/

/-- `MAX_DEPTH = 2`. -/
def MAX_DEPTH : Nat := 2

/-- The default for the `maximizing` parameter:
`not board.active_player`.  `Board.active_player` returns a `Player`
object, and `Player` defines neither `__bool__` nor `__len__`, so the
object is always truthy and `not` on it is always `False` — whoever is
active. -/
def defaultMaximizing (_b : Board) : Bool :=
  false

/-- The cache-lookup prologue of `minimax` (lines 38–51): on a hit the
key is touched (`__getitem__` reorders), a `max` entry raises `alpha`,
otherwise a `min` entry lowers `beta`, an exact entry returns
immediately, and after a bound adjustment `alpha >= beta` also returns
the entry's value and move.  `Sum.inl` is an early return, `Sum.inr`
the (possibly narrowed) window to continue with. -/
def probe (tt : TranspositionTable) (k : BKey) (alpha beta : Ext) :
    TranspositionTable × (Ext × Option Board) ⊕ (TranspositionTable × Ext × Ext) :=
  match tt.get k with
  | (none, tt) => Sum.inr (tt, alpha, beta)
  | (some entry, tt) =>
      if entry.max then
        let alpha := Ext.maxE alpha entry.value
        if Ext.le beta alpha then Sum.inl (tt, entry.value, entry.best_move)
        else Sum.inr (tt, alpha, beta)
      else if entry.min then
        let beta := Ext.minE beta entry.value
        if Ext.le beta alpha then Sum.inl (tt, entry.value, entry.best_move)
        else Sum.inr (tt, alpha, beta)
      else Sum.inl (tt, entry.value, entry.best_move)

/-- The state of the successor loop of `minimax`: running best value /
best move, the window, and the (mutated) transposition table. -/
structure FoldState where
  best : Ext
  best_move : Option Board
  alpha : Ext
  beta : Ext
  table : TranspositionTable
deriving DecidableEq, Repr

/-- The successor loop of `minimax` (lines 57–77), parameterized by the
recursive call `f` on a successor; the fold state (running best value,
best move, window and mutated table) is passed as separate arguments
and packed into a `FoldState` on exit.  Updates best value and move on
strict improvement, tightens `alpha` (maximizing) or `beta`
(minimizing) with the best value each iteration, and breaks as soon as
`alpha >= beta`. -/
def minimaxFold (f : Board → Ext → Ext → TranspositionTable → (Ext × Option Board) × TranspositionTable)
    (maximizing : Bool) :
    List Board → Ext → Option Board → Ext → Ext → TranspositionTable → FoldState
  | [], best, best_move, alpha, beta, table => ⟨best, best_move, alpha, beta, table⟩
  | successor :: rest, best, best_move, alpha, beta, table =>
      match f successor alpha beta table with
      | ((succ_value, _), table) =>
          if maximizing then
            match if Ext.lt best succ_value then (succ_value, some successor)
                  else (best, best_move) with
            | (best, best_move) =>
                match Ext.maxE alpha best with
                | alpha =>
                    if Ext.le beta alpha then ⟨best, best_move, alpha, beta, table⟩
                    else minimaxFold f maximizing rest best best_move alpha beta table
          else
            match if Ext.lt succ_value best then (succ_value, some successor)
                  else (best, best_move) with
            | (best, best_move) =>
                match Ext.minE beta best with
                | beta =>
                    if Ext.le beta alpha then ⟨best, best_move, alpha, beta, table⟩
                    else minimaxFold f maximizing rest best best_move alpha beta table

/-- `minimax` from `alpha_beta_pruning.py`, with the global
`transposition_table` threaded explicitly.  Returns the (value, move)
pair and the table after the call.  The `depth == 0 or is_game_over`
leaf test is split into the `0` pattern and the `is_game_over` test,
which together are the same condition.  After the loop the result is
classified and stored: `max` if `best_value <= alpha_0`, else `min` if
`best_value >= beta` (the current, tightened beta), else exact. -/
def minimax (b : Board) (maximizing? : Option Bool) (depth : Nat) (alpha beta : Ext)
    (tt : TranspositionTable) : (Ext × Option Board) × TranspositionTable :=
  let maximizing := maximizing?.getD (defaultMaximizing b)
  let alpha_0 := alpha
  match probe tt b.key alpha beta with
  | Sum.inl (tt, res) => (res, tt)
  | Sum.inr (tt, alpha, beta) =>
      match depth with
      | 0 => ((Ext.val b.heuristic_value, some b), tt)
      | d + 1 =>
          if b.is_game_over then ((Ext.val b.heuristic_value, some b), tt)
          else
            match minimaxFold (fun s a bb t => minimax s (some !maximizing) d a bb t)
                maximizing b.successors
                (if maximizing then Ext.negInf else Ext.posInf) none alpha beta tt with
            | ⟨best, best_move, _, beta, table⟩ =>
                ((best, best_move),
                 table.put b.key
                   (if Ext.le best alpha_0 then ⟨best, best_move, false, true⟩
                    else if Ext.le beta best then ⟨best, best_move, true, false⟩
                    else ⟨best, best_move, false, false⟩))

/-- A well-formed board: the grid has `rows` rows, each of `columns`
cells, and there is at least one row. -/
def WF (b : Board) : Prop :=
  b.grid.length = b.rows ∧ (∀ row ∈ b.grid, row.length = b.columns) ∧ 0 < b.rows

instance (b : Board) : Decidable (WF b) := by
  unfold WF; infer_instance

/-! ### Sample data for concrete evaluations -/

/-- First default player (`Player("X", "Red", PlayerType.HUMAN)`). -/
def pX : Player := { symbol := "X", color_name := "Red", ptype := .HUMAN }

/-- Second default player (`Player("O", "Yellow", PlayerType.AI)`). -/
def pO : Player := { symbol := "O", color_name := "Yellow", ptype := .AI }

/-- A board with the default players. -/
def mkBoard (rows columns active_player_index : Nat) (grid : List (List (Option Player))) :
    Board :=
  { rows := rows, columns := columns, players := (pX, pO),
    active_player_index := active_player_index, grid := grid }

/-- A fresh table of the source's configured capacity
(`TranspositionTable(8192)`). -/
def emptyTable : TranspositionTable := { maxsize := 8192, entries := [] }

/-- 1×5 board `[X . . . .]`, first player active. -/
def bX0 : Board := mkBoard 1 5 0 [[some pX, none, none, none, none]]

/-- Empty 1×5 board, first player active. -/
def bEmpty15 : Board := mkBoard 1 5 0 [[none, none, none, none, none]]

/-- A full 4×4 board whose column 0 is four `X`s (first player has a
four-in-a-row, but every column is full). -/
def bFullFour : Board :=
  mkBoard 4 4 1
    [[some pX, some pO, some pX, some pO],
     [some pX, some pO, some pO, some pX],
     [some pX, some pX, some pO, some pO],
     [some pX, some pO, some pX, some pO]]

/-- Does the board contain a window entirely occupied by `p`'s symbol
(an unbroken four-in-a-row for `p`)? -/
def Board.has_four (b : Board) (p : Player) : Bool :=
  b.windows.any fun g => count_symbol p g == SEQ_LENGTH

/-- A `get`/`put` script against the table. -/
inductive TableOp where
  | get : BKey → TableOp
  | put : BKey → CacheEntry → TableOp

/-- Run one operation (discarding `get`'s returned entry). -/
def applyOp (t : TranspositionTable) : TableOp → TranspositionTable
  | .get k => (t.get k).2
  | .put k v => t.put k v

/-- Run a script left to right. -/
def applyOps (t : TranspositionTable) (ops : List TableOp) : TranspositionTable :=
  ops.foldl applyOp t

/-- A one-entry table holding a `max`-kind entry for `bX0.key`. -/
def tMaxEntry : TranspositionTable :=
  { maxsize := 8, entries := [(bX0.key, ⟨Ext.val 7, none, false, true⟩)] }

/-- A one-entry table holding a `min`-kind entry for `bX0.key`. -/
def tMinEntry : TranspositionTable :=
  { maxsize := 8, entries := [(bX0.key, ⟨Ext.val 7, none, true, false⟩)] }

/-- A one-entry table holding an exact entry for `bX0.key`. -/
def tExactEntry : TranspositionTable :=
  { maxsize := 8, entries := [(bX0.key, ⟨Ext.val 7, none, false, false⟩)] }

/-- The ordering C6 claims for the column search order: ascending
distance from the middle column, ties broken by ascending index. -/
def lexLT (columns : Nat) (x y : Nat) : Prop :=
  colDist columns x < colDist columns y ∨
    (colDist columns x = colDist columns y ∧ x < y)

/-- 4×4 board, column 0 four `X`s, column 3 still open: a genuine
(non-drawn) four-in-a-row position for the first player. -/
def bWinFour : Board :=
  mkBoard 4 4 1
    [[some pX, some pO, some pX, none],
     [some pX, some pO, some pO, some pX],
     [some pX, some pX, some pO, some pO],
     [some pX, some pO, some pX, some pO]]

/-! ### Basic lemmas -/

theorem Ext.le_refl (a : Ext) : Ext.le a a = true := by
  cases a <;> simp [Ext.le]

theorem Ext.le_posInf (a : Ext) : Ext.le a Ext.posInf = true := by
  cases a <;> simp [Ext.le]

theorem Ext.minE_le_right (a b : Ext) : Ext.le (Ext.minE a b) b = true := by
  unfold Ext.minE
  split
  · assumption
  · exact Ext.le_refl b

/-- A probe on a key the table does not hold continues with the window
and table unchanged. -/
theorem probe_miss {tt : TranspositionTable} {k : BKey} (alpha beta : Ext)
    (h : findEntry tt k = none) :
    probe tt k alpha beta = Sum.inr (tt, alpha, beta) := by
  unfold probe TranspositionTable.get
  rw [h]

/-! ### C9 -/

/-- C9: the position key is computed from the grid contents alone
(per-cell symbols, `none` for empty); two positions with identical grids
have identical keys whatever their active-player indicators, so they
collide in the cache. -/
theorem C9_key_ignores_active_player (b1 b2 : Board) (hgrid : b1.grid = b2.grid) :
    b1.key = b2.key := by
  unfold Board.key
  rw [hgrid]

/-- Witness for C9: the 1×5 board with either player active has the
same key. -/
theorem C9_key_ignores_active_player_witness :
    (mkBoard 1 5 0 [[some pX, none, none, none, none]]).grid =
      (mkBoard 1 5 1 [[some pX, none, none, none, none]]).grid ∧
    (mkBoard 1 5 0 [[some pX, none, none, none, none]]).key =
      (mkBoard 1 5 1 [[some pX, none, none, none, none]]).key :=
  ⟨rfl, C9_key_ignores_active_player _ _ rfl⟩

/-! ### C7 -/

/-- C7: `place_piece` fails with `ColumnOutOfBounds` for a column index
outside `[0, columns)` and with `ColumnFull` for an in-range column
with no open cell, and in both failure cases the returned board is the
input board unchanged (grid and active-player indicator included). -/
theorem C7_place_piece_errors (b : Board) (c : Int) :
    ((c < 0 ∨ (b.columns : Int) ≤ c) →
      b.place_piece c = (some (.ColumnOutOfBounds c), b)) ∧
    (0 ≤ c → c < (b.columns : Int) → b.next_open_row c.toNat = none →
      b.place_piece c = (some (.ColumnFull c), b)) := by
  constructor
  · intro h
    unfold Board.place_piece
    have : (decide (c < 0) || decide ((b.columns : Int) ≤ c)) = true := by
      rcases h with h | h <;> simp [h]
    rw [if_pos this]
  · intro h0 hlt hopen
    unfold Board.place_piece
    have : (decide (c < 0) || decide ((b.columns : Int) ≤ c)) = false := by
      simp only [Bool.or_eq_false_iff, decide_eq_false_iff_not, not_lt, not_le]
      exact ⟨h0, hlt⟩
    rw [if_neg (by simp [this]), hopen]

/-- Witness for C7: on the 1×5 board, column −1 is out of range and
column 0 (holding the only piece) is full. -/
theorem C7_place_piece_errors_witness :
    ((-1 : Int) < 0 ∨ ((bX0.columns : Int) ≤ -1)) ∧
    bX0.place_piece (-1) = (some (.ColumnOutOfBounds (-1)), bX0) ∧
    ((0 : Int) ≤ 0 ∧ (0 : Int) < (bX0.columns : Int) ∧ bX0.next_open_row (Int.toNat 0) = none) ∧
    bX0.place_piece 0 = (some (.ColumnFull 0), bX0) :=
  ⟨Or.inl (by decide),
   (C7_place_piece_errors bX0 (-1)).1 (Or.inl (by decide)),
   ⟨by decide, by decide, by decide⟩,
   (C7_place_piece_errors bX0 0).2 (by decide) (by decide) (by decide)⟩

/-! ### C8 -/

theorem length_filter_add_one_le {l : List (BKey × CacheEntry)} {k : BKey} {pr : BKey × CacheEntry}
    (h : l.find? (fun p => p.1 == k) = some pr) :
    (l.filter fun p => !(p.1 == k)).length + 1 ≤ l.length := by
  induction l with
  | nil => simp at h
  | cons a l ih =>
      by_cases ha : (a.1 == k) = true
      · have := l.length_filter_le fun p => !(p.1 == k)
        simp only [List.filter_cons, ha, Bool.not_true, Bool.false_eq_true, if_false,
          List.length_cons]
        omega
      · rw [List.find?_cons_of_neg _ (by simp [ha])] at h
        have := ih h
        simp only [List.filter_cons, ha, Bool.not_false, List.length_cons, if_true]
        omega

theorem get_maxsize (t : TranspositionTable) (k : BKey) :
    ((t.get k).2).maxsize = t.maxsize := by
  unfold TranspositionTable.get
  cases hf : findEntry t k
  all_goals simp

theorem put_maxsize (t : TranspositionTable) (k : BKey) (v : CacheEntry) :
    (t.put k v).maxsize = t.maxsize := rfl

theorem get_length_le (t : TranspositionTable) (k : BKey) :
    ((t.get k).2).entries.length ≤ t.entries.length := by
  unfold TranspositionTable.get findEntry
  cases hf : t.entries.find? fun p => p.1 == k with
  | none => simp
  | some pr => simpa using length_filter_add_one_le hf

theorem put_length_le (t : TranspositionTable) (k : BKey) (v : CacheEntry)
    (h : t.entries.length ≤ t.maxsize) :
    (t.put k v).entries.length ≤ t.maxsize := by
  unfold TranspositionTable.put
  have hf := t.entries.length_filter_le fun p => !(p.1 == k)
  simp only
  split
  all_goals simp_all
  all_goals omega

theorem applyOps_length_le :
    ∀ (ops : List TableOp) (t : TranspositionTable), t.entries.length ≤ t.maxsize →
      (applyOps t ops).entries.length ≤ (applyOps t ops).maxsize ∧
      (applyOps t ops).maxsize = t.maxsize
  | [], t, h => ⟨h, rfl⟩
  | op :: ops, t, h => by
      have hstep : (applyOp t op).entries.length ≤ (applyOp t op).maxsize ∧
          (applyOp t op).maxsize = t.maxsize := by
        cases op with
        | get k =>
            exact ⟨by rw [applyOp, get_maxsize]; exact le_trans (get_length_le t k) h,
              get_maxsize t k⟩
        | put k v =>
            exact ⟨by rw [applyOp, put_maxsize]; exact put_length_le t k v h, rfl⟩
      have := applyOps_length_le ops (applyOp t op) hstep.1
      exact ⟨this.1, by rw [applyOps] at this ⊢; rw [List.foldl_cons, this.2, hstep.2]⟩

/-- C8: (1) starting from a fresh table of capacity `m`, no `get`/`put`
script leaves more than `m` entries in the table; (2) a `put` of a new
key into a full table evicts exactly the least-recently-touched (first)
entry, appending the new pair at the most-recently-used end; (3) after
a `get` hit on `k`, a `put` of `k` does not evict `k`: the key is still
present, bound to the new value. -/
theorem C8_lru_bounded_cache (m : Nat) (ops : List TableOp) (t : TranspositionTable)
    (k : BKey) (v e : CacheEntry) :
    ((applyOps { maxsize := m, entries := [] } ops).entries.length ≤ m) ∧
    (findEntry t k = none → t.entries.length = t.maxsize → 0 < t.maxsize →
      (t.put k v).entries = t.entries.tail ++ [(k, v)]) ∧
    (findEntry t k = some e → t.entries.length ≤ t.maxsize →
      findEntry (((t.get k).2).put k v) k = some v) := by
  refine ⟨?_, ?_, ?_⟩
  · have := applyOps_length_le ops { maxsize := m, entries := [] } (by simp)
    simpa [this.2] using this.1
  · intro hmiss hfull hpos
    unfold findEntry at hmiss
    have hall : ∀ p ∈ t.entries, ¬(p.1 = k) := by
      intro p hp
      have h0 : (t.entries.find? fun q => q.1 == k) = none := Option.map_eq_none'.mp hmiss
      simpa using List.find?_eq_none.mp h0 p hp
    have hfilter : (t.entries.filter fun p => !(p.1 == k)) = t.entries :=
      List.filter_eq_self.mpr fun p hp => by simp [hall p hp]
    unfold TranspositionTable.put
    simp only [hfilter]
    have hlen : t.maxsize < (t.entries ++ [(k, v)]).length := by
      simp [hfull]
    rw [if_pos hlen, List.drop_append_of_le_length (by omega), List.drop_one]
  · intro hfind hlen
    obtain ⟨pr, hpr, hpr2⟩ : ∃ pr, (t.entries.find? fun p => p.1 == k) = some pr ∧ pr.2 = e := by
      simpa [findEntry, Option.map_eq_some'] using hfind
    have hget : (t.get k).2 =
        { t with entries := (t.entries.filter fun p => !(p.1 == k)) ++ [(k, e)] } := by
      unfold TranspositionTable.get
      rw [show findEntry t k = some e from hfind]
    have hnoK : ∀ p ∈ (t.entries.filter fun p => !(p.1 == k)), (p.1 == k) = false := by
      intro p hp
      have := List.of_mem_filter hp
      simpa using this
    have hfilter2 :
        (((t.entries.filter fun p => !(p.1 == k)) ++ [(k, e)]).filter fun p => !(p.1 == k)) =
          t.entries.filter fun p => !(p.1 == k) := by
      rw [List.filter_append]
      have h1 : ((t.entries.filter fun p => !(p.1 == k)).filter fun p => !(p.1 == k)) =
          t.entries.filter fun p => !(p.1 == k) :=
        List.filter_eq_self.mpr fun p hp => by simp [hnoK p hp]
      have h2 : (([(k, e)] : List (BKey × CacheEntry)).filter fun p => !(p.1 == k)) = [] := by
        simp
      rw [h1, h2, List.append_nil]
    have hshort : ((t.entries.filter fun p => !(p.1 == k)) ++ [(k, v)]).length ≤ t.maxsize := by
      have := length_filter_add_one_le hpr
      simp only [List.length_append, List.length_cons, List.length_nil]
      omega
    rw [hget]
    unfold TranspositionTable.put
    simp only [hfilter2]
    rw [if_neg (by simpa using hshort)]
    unfold findEntry
    rw [List.find?_append]
    have hfnone : ((t.entries.filter fun p => !(p.1 == k)).find? fun p => p.1 == k) = none :=
      List.find?_eq_none.mpr fun p hp => by simp [hnoK p hp]
    rw [hfnone]
    simp

/-- Witness for C8: a two-entry table of capacity 2; a new key evicts
the oldest entry, and a get-then-put of an existing key keeps it. -/
theorem C8_lru_bounded_cache_witness :
    ((applyOps { maxsize := 2, entries := [] }
        [.put [[some "A"]] ⟨Ext.val 1, none, false, false⟩,
         .put [[some "B"]] ⟨Ext.val 2, none, false, false⟩,
         .get [[some "A"]],
         .put [[some "C"]] ⟨Ext.val 3, none, false, false⟩]).entries.length ≤ 2) ∧
    (let t2 : TranspositionTable :=
      { maxsize := 2,
        entries := [([[some "A"]], ⟨Ext.val 1, none, false, false⟩),
                    ([[some "B"]], ⟨Ext.val 2, none, false, false⟩)] }
     findEntry t2 [[some "C"]] = none ∧
     t2.entries.length = t2.maxsize ∧ 0 < t2.maxsize ∧
     (t2.put [[some "C"]] ⟨Ext.val 3, none, false, false⟩).entries =
       t2.entries.tail ++ [([[some "C"]], ⟨Ext.val 3, none, false, false⟩)] ∧
     findEntry t2 [[some "A"]] = some ⟨Ext.val 1, none, false, false⟩ ∧
     t2.entries.length ≤ t2.maxsize ∧
     findEntry (((t2.get [[some "A"]]).2).put [[some "A"]] ⟨Ext.val 9, none, false, false⟩)
       [[some "A"]] = some ⟨Ext.val 9, none, false, false⟩) := by
  refine ⟨(C8_lru_bounded_cache 2 _ emptyTable [] ⟨Ext.val 0, none, false, false⟩
    ⟨Ext.val 0, none, false, false⟩).1, by decide, by decide, by decide, ?_, by decide, by decide, ?_⟩
  · exact (C8_lru_bounded_cache 2 [] _ [[some "C"]] ⟨Ext.val 3, none, false, false⟩
      ⟨Ext.val 0, none, false, false⟩).2.1 (by decide) (by decide) (by decide)
  · exact (C8_lru_bounded_cache 2 [] _ [[some "A"]] ⟨Ext.val 9, none, false, false⟩
      ⟨Ext.val 1, none, false, false⟩).2.2 (by decide) (by decide)

/-! ### C4 and C10 helpers -/

/-- Unfolding of `minimax` through a continuing probe at a non-leaf
node: the result is the loop's best value and move, and the entry
stored for the key carries that value and move, classified `max` when
the best value is at most the entry `alpha`, else `min` when it is at
least the loop's final (tightened) `beta`, else exact. -/
theorem minimax_store_shape (b : Board) (maxim : Bool) (d : Nat) (alpha beta a1 b1 : Ext)
    (tt tt1 : TranspositionTable)
    (hprobe : probe tt b.key alpha beta = Sum.inr (tt1, a1, b1))
    (hover : b.is_game_over = false) :
    minimax b (some maxim) (d + 1) alpha beta tt =
      (let st := minimaxFold (fun s a bb t => minimax s (some !maxim) d a bb t) maxim
          b.successors (if maxim then Ext.negInf else Ext.posInf) none a1 b1 tt1
       ((st.best, st.best_move),
        st.table.put b.key
          (if Ext.le st.best alpha then CacheEntry.mk st.best st.best_move false true
           else if Ext.le st.beta st.best then CacheEntry.mk st.best st.best_move true false
           else CacheEntry.mk st.best st.best_move false false))) := by
  rw [minimax]
  simp only [hprobe, hover, Option.getD_some, Bool.false_eq_true, if_false]

/-- A probe on a present key touches it (`__getitem__` moves it to the
most-recently-used end); a `max` entry raises `alpha` to its value and
a `min` entry lowers `beta`, each returning the entry's value and move
if the window thereby closes; an exact entry returns them at once. -/
theorem probe_hit_cases (tt : TranspositionTable) (k : BKey) (alpha beta : Ext)
    (e : CacheEntry) (hfind : findEntry tt k = some e) :
    (e.max = true →
      probe tt k alpha beta =
        if Ext.le beta (Ext.maxE alpha e.value)
        then Sum.inl ((tt.get k).2, e.value, e.best_move)
        else Sum.inr ((tt.get k).2, Ext.maxE alpha e.value, beta)) ∧
    (e.max = false → e.min = true →
      probe tt k alpha beta =
        if Ext.le (Ext.minE beta e.value) alpha
        then Sum.inl ((tt.get k).2, e.value, e.best_move)
        else Sum.inr ((tt.get k).2, alpha, Ext.minE beta e.value)) ∧
    (e.max = false → e.min = false →
      probe tt k alpha beta = Sum.inl ((tt.get k).2, e.value, e.best_move)) := by
  have hget : tt.get k =
      (some e, { tt with entries := (tt.entries.filter fun p => !(p.1 == k)) ++ [(k, e)] }) := by
    unfold TranspositionTable.get
    rw [hfind]
  refine ⟨?_, ?_, ?_⟩
  · intro hmax
    unfold probe
    rw [hget]
    simp only [hmax, if_true]
  · intro hmax hmin
    unfold probe
    rw [hget]
    simp only [hmax, hmin, Bool.false_eq_true, if_false, if_true]
  · intro hmax hmin
    unfold probe
    rw [hget]
    simp only [hmax, hmin, Bool.false_eq_true, if_false]

/-- A probe hit on an exact entry (both bound flags clear) makes
`minimax` return the stored value and move at once, whatever the depth
and `maximizing` argument; the table is only reordered. -/
theorem minimax_exact_hit (b : Board) (m? : Option Bool) (depth : Nat) (alpha beta : Ext)
    (tt : TranspositionTable) (e : CacheEntry) (hfind : findEntry tt b.key = some e)
    (hmax : e.max = false) (hmin : e.min = false) :
    minimax b m? depth alpha beta tt = ((e.value, e.best_move), (tt.get b.key).2) := by
  rw [minimax, (probe_hit_cases tt b.key alpha beta e hfind).2.2 hmax hmin]

/-- Generic (any `maximizing?` argument) unfolding of `minimax` through
a continuing probe at a non-leaf node. -/
theorem minimax_nonleaf_shape (b : Board) (m? : Option Bool) (d : Nat)
    (alpha beta a1 b1 : Ext) (tt tt1 : TranspositionTable)
    (hprobe : probe tt b.key alpha beta = Sum.inr (tt1, a1, b1))
    (hover : b.is_game_over = false) :
    minimax b m? (d + 1) alpha beta tt =
      (let mx := m?.getD (defaultMaximizing b)
       let st := minimaxFold (fun s a bb t => minimax s (some !mx) d a bb t) mx
          b.successors (if mx then Ext.negInf else Ext.posInf) none a1 b1 tt1
       ((st.best, st.best_move),
        st.table.put b.key
          (if Ext.le st.best alpha then CacheEntry.mk st.best st.best_move false true
           else if Ext.le st.beta st.best then CacheEntry.mk st.best st.best_move true false
           else CacheEntry.mk st.best st.best_move false false))) := by
  rw [minimax]
  simp only [hprobe, hover, Bool.false_eq_true, if_false]

/-- Leaf unfolding of `minimax` through a continuing probe: at depth 0,
or on a terminal position, the heuristic value and the position itself
come back, with the table as the probe left it. -/
theorem minimax_leaf_shape (b : Board) (m? : Option Bool) (depth : Nat)
    (alpha beta a1 b1 : Ext) (tt tt1 : TranspositionTable)
    (hprobe : probe tt b.key alpha beta = Sum.inr (tt1, a1, b1))
    (hleaf : depth = 0 ∨ b.is_game_over = true) :
    minimax b m? depth alpha beta tt = ((Ext.val b.heuristic_value, some b), tt1) := by
  rw [minimax]
  simp only [hprobe]
  rcases hleaf with h | h
  · subst h
    rfl
  · cases depth with
    | zero => rfl
    | succ d => simp only [h, if_true]

/-! ### C4 -/

/-- C4: store and lookup polarities are paired exactly.  (1) A `max`
entry — the kind stored when a finished non-leaf node has
`bestValue <= alpha0` — is consumed by a later lookup by raising
`alpha` to the stored value.  (2) A `min` entry — stored when
`bestValue >= beta` for the current, possibly-tightened `beta` — is
consumed by lowering `beta` to the stored value.  (3) An exact entry
(both flags clear) makes a later hit return the stored value and
recorded move immediately.  (4) A finishing non-leaf call stores
exactly that classification of its loop result. -/
theorem C4_store_lookup_polarity (b : Board) (maxim : Bool) (d : Nat)
    (alpha beta a1 b1 : Ext) (tt tt1 : TranspositionTable) (e : CacheEntry) :
    (findEntry tt b.key = some e → e.max = true →
      probe tt b.key alpha beta =
        if Ext.le beta (Ext.maxE alpha e.value)
        then Sum.inl ((tt.get b.key).2, e.value, e.best_move)
        else Sum.inr ((tt.get b.key).2, Ext.maxE alpha e.value, beta)) ∧
    (findEntry tt b.key = some e → e.max = false → e.min = true →
      probe tt b.key alpha beta =
        if Ext.le (Ext.minE beta e.value) alpha
        then Sum.inl ((tt.get b.key).2, e.value, e.best_move)
        else Sum.inr ((tt.get b.key).2, alpha, Ext.minE beta e.value)) ∧
    (findEntry tt b.key = some e → e.max = false → e.min = false →
      minimax b (some maxim) d alpha beta tt = ((e.value, e.best_move), (tt.get b.key).2)) ∧
    (probe tt b.key alpha beta = Sum.inr (tt1, a1, b1) → b.is_game_over = false →
      minimax b (some maxim) (d + 1) alpha beta tt =
        (let st := minimaxFold (fun s a bb t => minimax s (some !maxim) d a bb t) maxim
            b.successors (if maxim then Ext.negInf else Ext.posInf) none a1 b1 tt1
         ((st.best, st.best_move),
          st.table.put b.key
            (if Ext.le st.best alpha then CacheEntry.mk st.best st.best_move false true
             else if Ext.le st.beta st.best then CacheEntry.mk st.best st.best_move true false
             else CacheEntry.mk st.best st.best_move false false)))) := by
  refine ⟨fun hf => (probe_hit_cases tt b.key alpha beta e hf).1,
    fun hf => (probe_hit_cases tt b.key alpha beta e hf).2.1,
    fun hf hmax hmin => ?_,
    fun hprobe hover => minimax_store_shape b maxim d alpha beta a1 b1 tt tt1 hprobe hover⟩
  rw [minimax]
  rw [(probe_hit_cases tt b.key alpha beta e hf).2.2 hmax hmin]

/-- Witness for C4: concrete one-entry tables of each kind probed with
the window (0, 100), and a concrete completed non-leaf search. -/
theorem C4_store_lookup_polarity_witness :
    (findEntry tMaxEntry bX0.key = some ⟨Ext.val 7, none, false, true⟩ ∧
      probe tMaxEntry bX0.key (Ext.val 0) (Ext.val 100) =
        Sum.inr ((tMaxEntry.get bX0.key).2, Ext.maxE (Ext.val 0) (Ext.val 7), Ext.val 100)) ∧
    (findEntry tMinEntry bX0.key = some ⟨Ext.val 7, none, true, false⟩ ∧
      probe tMinEntry bX0.key (Ext.val 0) (Ext.val 100) =
        Sum.inr ((tMinEntry.get bX0.key).2, Ext.val 0, Ext.minE (Ext.val 100) (Ext.val 7))) ∧
    (findEntry tExactEntry bX0.key = some ⟨Ext.val 7, none, false, false⟩ ∧
      minimax bX0 (some true) 3 (Ext.val 0) (Ext.val 100) tExactEntry =
        ((Ext.val 7, none), (tExactEntry.get bX0.key).2)) ∧
    (probe emptyTable bX0.key Ext.negInf Ext.posInf =
        Sum.inr (emptyTable, Ext.negInf, Ext.posInf) ∧
      bX0.is_game_over = false ∧
      minimax bX0 (some true) 1 Ext.negInf Ext.posInf emptyTable =
        (let st := minimaxFold (fun s a bb t => minimax s (some !true) 0 a bb t) true
            bX0.successors (if true then Ext.negInf else Ext.posInf) none Ext.negInf Ext.posInf
            emptyTable
         ((st.best, st.best_move),
          st.table.put bX0.key
            (if Ext.le st.best Ext.negInf then CacheEntry.mk st.best st.best_move false true
             else if Ext.le st.beta st.best then CacheEntry.mk st.best st.best_move true false
             else CacheEntry.mk st.best st.best_move false false)))) := by
  refine ⟨⟨by decide, ?_⟩, ⟨by decide, ?_⟩, ⟨by decide, ?_⟩, by decide, by decide, ?_⟩
  · have h := (C4_store_lookup_polarity bX0 true 0 (Ext.val 0) (Ext.val 100) Ext.negInf
      Ext.negInf tMaxEntry emptyTable ⟨Ext.val 7, none, false, true⟩).1 (by decide) rfl
    rw [h]
    decide
  · have h := (C4_store_lookup_polarity bX0 true 0 (Ext.val 0) (Ext.val 100) Ext.negInf
      Ext.negInf tMinEntry emptyTable ⟨Ext.val 7, none, true, false⟩).2.1 (by decide) rfl rfl
    rw [h]
    decide
  · exact (C4_store_lookup_polarity bX0 true 3 (Ext.val 0) (Ext.val 100) Ext.negInf
      Ext.negInf tExactEntry emptyTable ⟨Ext.val 7, none, false, false⟩).2.2.1
      (by decide) rfl rfl
  · exact (C4_store_lookup_polarity bX0 true 0 Ext.negInf Ext.posInf Ext.negInf Ext.posInf
      emptyTable emptyTable ⟨Ext.val 0, none, false, false⟩).2.2.2 (by decide) (by decide)

/-! ### C10 -/

/-- In the minimizing loop, `beta` is tightened to
`min(beta, bestValue)` on every iteration, so on exit either no
iteration ran (the best value is still `+inf`) or the final `beta` is
at most the final best value. -/
theorem minimaxFold_min_beta_le_best
    (f : Board → Ext → Ext → TranspositionTable → (Ext × Option Board) × TranspositionTable) :
    ∀ (l : List Board) (best : Ext) (mv : Option Board) (alpha beta : Ext)
      (table : TranspositionTable),
      (Ext.le beta best = true ∨ best = Ext.posInf) →
      (Ext.le (minimaxFold f false l best mv alpha beta table).beta
          (minimaxFold f false l best mv alpha beta table).best = true ∨
        (minimaxFold f false l best mv alpha beta table).best = Ext.posInf)
  | [], best, mv, alpha, beta, table, h => by
      simpa [minimaxFold] using h
  | s :: rest, best, mv, alpha, beta, table, h => by
      rw [minimaxFold]
      simp only [Bool.false_eq_true, if_false]
      cases hc : f s alpha beta table with
      | mk r table2 =>
          cases r with
          | mk sv mv2 =>
              cases hupd : if Ext.lt sv best then (sv, some s) else (best, mv) with
              | mk best2 mv3 =>
                  simp only
                  split
                  · exact Or.inl (Ext.minE_le_right beta best2)
                  · exact minimaxFold_min_beta_le_best f rest best2 mv3 alpha
                      (Ext.minE beta best2) table2 (Or.inl (Ext.minE_le_right beta best2))

/-- C10: a minimizing (non-maximizing) search of a non-terminal
position at depth ≥ 1 that reaches its successor loop never stores an
EXACT entry: because `beta` is tightened to `min(beta, bestValue)`
after every update, `bestValue >= beta` holds at store time and the
stored entry is a bound — the `max` kind when `bestValue <= alpha0`,
otherwise the `min` kind. -/
theorem C10_minimizing_store_never_exact (b : Board) (d : Nat) (alpha beta a1 b1 : Ext)
    (tt tt1 : TranspositionTable)
    (hprobe : probe tt b.key alpha beta = Sum.inr (tt1, a1, b1))
    (hover : b.is_game_over = false) :
    ∃ (t2 : TranspositionTable) (e : CacheEntry),
      minimax b (some false) (d + 1) alpha beta tt =
        ((e.value, e.best_move), t2.put b.key e) ∧ (e.min = true ∨ e.max = true) := by
  rw [minimax_store_shape b false d alpha beta a1 b1 tt tt1 hprobe hover]
  simp only [Bool.false_eq_true, if_false]
  set st := minimaxFold (fun s a bb t => minimax s (some !false) d a bb t) false
    b.successors Ext.posInf none a1 b1 tt1 with hst
  have hinv : Ext.le st.beta st.best = true ∨ st.best = Ext.posInf :=
    minimaxFold_min_beta_le_best _ b.successors Ext.posInf none a1 b1 tt1 (Or.inr rfl)
  by_cases hlow : Ext.le st.best alpha = true
  · exact ⟨st.table, ⟨st.best, st.best_move, false, true⟩, by rw [if_pos hlow], Or.inr rfl⟩
  · have hge : Ext.le st.beta st.best = true := by
      rcases hinv with h | h
      · exact h
      · rw [h]
        exact Ext.le_posInf st.beta
    exact ⟨st.table, ⟨st.best, st.best_move, true, false⟩,
      by rw [if_neg (by simp [hlow]), if_pos hge], Or.inl rfl⟩

/-- Witness for C10: the depth-1 minimizing search of the empty 1×5
board from the empty table stores a bound entry. -/
theorem C10_minimizing_store_never_exact_witness :
    probe emptyTable bEmpty15.key Ext.negInf Ext.posInf =
      Sum.inr (emptyTable, Ext.negInf, Ext.posInf) ∧
    bEmpty15.is_game_over = false ∧
    (∃ (t2 : TranspositionTable) (e : CacheEntry),
      minimax bEmpty15 (some false) (0 + 1) Ext.negInf Ext.posInf emptyTable =
        ((e.value, e.best_move), t2.put bEmpty15.key e) ∧ (e.min = true ∨ e.max = true)) :=
  ⟨rfl, by decide,
   C10_minimizing_store_never_exact bEmpty15 0 Ext.negInf Ext.posInf Ext.negInf Ext.posInf
     emptyTable emptyTable rfl (by decide)⟩

/-! ### C5 -/

theorem find?_append_key (noK : List (BKey × CacheEntry)) (k : BKey) (v : CacheEntry)
    (h : ∀ p ∈ noK, (p.1 == k) = false) :
    ((noK ++ [(k, v)]).find? fun p => p.1 == k) = some (k, v) := by
  rw [List.find?_append, List.find?_eq_none.mpr fun p hp => by simp [h p hp]]
  simp

/-- Whatever `put` stored for `k` is what a lookup of `k` finds (unless
the entry was evicted at once, which only a capacity-0 table does). -/
theorem findEntry_put_self (t : TranspositionTable) (k : BKey) (v w : CacheEntry)
    (hw : findEntry (t.put k v) k = some w) : w = v := by
  unfold TranspositionTable.put findEntry at hw
  dsimp only at hw
  have hall : ∀ p ∈ (t.entries.filter fun p => !(p.1 == k)), (p.1 == k) = false :=
    fun p hp => by simpa using List.of_mem_filter hp
  by_cases hc : t.maxsize <
      ((t.entries.filter fun p => !(p.1 == k)) ++ [(k, v)]).length
  · rw [if_pos hc] at hw
    cases hn : t.entries.filter fun p => !(p.1 == k) with
    | nil =>
        rw [hn] at hw
        simp at hw
    | cons q qs =>
        rw [hn] at hw
        simp only [List.cons_append, List.drop_succ_cons, List.drop_zero] at hw
        rw [find?_append_key qs k v fun p hp => hall p (hn ▸ List.mem_cons_of_mem q hp)] at hw
        simp at hw
        exact hw.symm
  · rw [if_neg hc] at hw
    rw [find?_append_key _ k v hall] at hw
    simp at hw
    exact hw.symm

/-- Counterexample to C5 as stated: on the empty 1×5 board with default
arguments (maximizing unspecified, depth 2, full window), the rerun
against the cache warmed by the first call returns a different (value,
move) pair than the cold run — the value is 0 both times but the warm
rerun picks the move in column 1 where the cold run picked column 0. -/
theorem C5_counterexample :
    (minimax bEmpty15 none 2 .negInf .posInf
       (minimax bEmpty15 none 2 .negInf .posInf emptyTable).2).1 ≠
      (minimax bEmpty15 none 2 .negInf .posInf emptyTable).1 := by
  decide

/-- C5 (amended): rerunning `minimax` with identical arguments against
the cache warmed by a cold (initially empty) run returns the same
(value, move) pair whenever the cold run finished by storing an EXACT
entry for the position; in general a warmed rerun may return a
different move, because bound entries at descendants force re-searches
with tightened windows (see the counterexample). -/
theorem C5_warm_rerun_exact (b : Board) (m? : Option Bool) (d : Nat) (alpha beta : Ext)
    (M : Nat) (e : CacheEntry)
    (hfind : findEntry (minimax b m? d alpha beta { maxsize := M, entries := [] }).2 b.key =
      some e)
    (hmax : e.max = false) (hmin : e.min = false) :
    (minimax b m? d alpha beta
        (minimax b m? d alpha beta { maxsize := M, entries := [] }).2).1 =
      (minimax b m? d alpha beta { maxsize := M, entries := [] }).1 := by
  have hmiss0 : findEntry { maxsize := M, entries := [] } b.key = none := rfl
  have hprobe0 : probe { maxsize := M, entries := [] } b.key alpha beta =
      Sum.inr ({ maxsize := M, entries := [] }, alpha, beta) :=
    probe_miss alpha beta hmiss0
  have hrun2 := minimax_exact_hit b m? d alpha beta
    (minimax b m? d alpha beta { maxsize := M, entries := [] }).2 e hfind hmax hmin
  rw [hrun2]
  by_cases hleaf : d = 0 ∨ b.is_game_over = true
  · rw [minimax_leaf_shape b m? d alpha beta alpha beta _ _ hprobe0 hleaf] at hfind
    rw [show findEntry { maxsize := M, entries := [] } b.key = none from rfl] at hfind
    cases hfind
  · push_neg at hleaf
    obtain ⟨d', rfl⟩ : ∃ d', d = d' + 1 := ⟨d - 1, by omega⟩
    have hover : b.is_game_over = false := by
      cases hov : b.is_game_over
      · rfl
      · exact absurd hov hleaf.2
    rw [minimax_nonleaf_shape b m? d' alpha beta alpha beta _ _ hprobe0 hover] at hfind ⊢
    simp only at hfind ⊢
    set st := minimaxFold
      (fun s a bb t => minimax s (some !m?.getD (defaultMaximizing b)) d' a bb t)
      (m?.getD (defaultMaximizing b)) b.successors
      (if m?.getD (defaultMaximizing b) then Ext.negInf else Ext.posInf) none alpha beta
      { maxsize := M, entries := [] } with hstdef
    have he := findEntry_put_self st.table b.key _ e hfind
    have heval : e.value = st.best ∧ e.best_move = st.best_move := by
      split at he
      · rw [he]
        exact ⟨rfl, rfl⟩
      · split at he
        · rw [he]
          exact ⟨rfl, rfl⟩
        · rw [he]
          exact ⟨rfl, rfl⟩
    rw [heval.1, heval.2]

/-- Witness for C5: the depth-1 maximizing search of `[X . . . .]` from
an empty table stores an EXACT entry (value 60, move in column 2), and
the warmed rerun returns the same pair. -/
theorem C5_warm_rerun_exact_witness :
    findEntry (minimax bX0 (some true) 1 .negInf .posInf
        { maxsize := 8192, entries := [] }).2 bX0.key =
      some ⟨Ext.val 60, some (mkBoard 1 5 1 [[some pX, none, some pX, none, none]]),
        false, false⟩ ∧
    (minimax bX0 (some true) 1 .negInf .posInf
        (minimax bX0 (some true) 1 .negInf .posInf { maxsize := 8192, entries := [] }).2).1 =
      (minimax bX0 (some true) 1 .negInf .posInf { maxsize := 8192, entries := [] }).1 :=
  ⟨by decide,
   C5_warm_rerun_exact bX0 (some true) 1 .negInf .posInf 8192
     ⟨Ext.val 60, some (mkBoard 1 5 1 [[some pX, none, some pX, none, none]]), false, false⟩
     (by decide) rfl rfl⟩

/-! ### C6 -/

theorem pairwise_lex_orderedInsert (cols a : Nat) :
    ∀ (L : List Nat), L.Pairwise (lexLT cols) → (∀ y ∈ L, a < y) →
      (List.orderedInsert (fun x y => colDist cols x ≤ colDist cols y) a L).Pairwise
        (lexLT cols)
  | [], _, _ => by simp [lexLT]
  | b :: L, hL, ha => by
      rw [List.orderedInsert]
      split
      · rename_i hr
        refine List.Pairwise.cons ?_ hL
        intro y hy
        rcases List.mem_cons.mp hy with hb | hyL
        · subst hb
          rcases Nat.lt_or_ge (colDist cols a) (colDist cols y) with h | h
          · exact Or.inl h
          · exact Or.inr ⟨Nat.le_antisymm hr h, ha _ (List.mem_cons_self y L)⟩
        · have hby := (List.pairwise_cons.mp hL).1 y hyL
          rcases hby with h | h
          · rcases Nat.lt_or_ge (colDist cols a) (colDist cols y) with h2 | h2
            · exact Or.inl h2
            · omega
          · rcases Nat.lt_or_ge (colDist cols a) (colDist cols y) with h2 | h2
            · exact Or.inl h2
            · exact Or.inr ⟨by omega, ha y (List.mem_cons_of_mem b hyL)⟩
      · rename_i hr
        have hba : colDist cols b < colDist cols a := Nat.lt_of_not_le hr
        refine List.Pairwise.cons ?_
          (pairwise_lex_orderedInsert cols a L (List.pairwise_cons.mp hL).2
            fun y hy => ha y (List.mem_cons_of_mem b hy))
        intro y hy
        rcases (List.mem_orderedInsert _).mp hy with rfl | hyL
        · exact Or.inl hba
        · exact (List.pairwise_cons.mp hL).1 y hyL

theorem pairwise_lex_insertionSort (cols : Nat) :
    ∀ (l : List Nat), l.Pairwise (· < ·) →
      (List.insertionSort (fun x y => colDist cols x ≤ colDist cols y) l).Pairwise
        (lexLT cols)
  | [], _ => by simp
  | a :: l, h => by
      rw [List.insertionSort]
      refine pairwise_lex_orderedInsert cols a _
        (pairwise_lex_insertionSort cols l (List.pairwise_cons.mp h).2) ?_
      intro y hy
      exact (List.pairwise_cons.mp h).1 y ((List.mem_insertionSort _).mp hy)

theorem openRowFrom_some (g : List (List (Option Player))) (c : Nat) :
    ∀ n, (cellAt g 0 c).isSome = false → 0 < n → ∃ r, openRowFrom g c n = some r
  | 0, _, h0 => absurd h0 (by omega)
  | 1, h, _ => by
      rw [openRowFrom, if_neg (by simp [h])]
      exact ⟨0, rfl⟩
  | n + 2, h, _ => by
      rw [openRowFrom]
      split
      · exact openRowFrom_some g c (n + 1) h (by omega)
      · exact ⟨n + 1, rfl⟩

theorem openRowFrom_char (g : List (List (Option Player))) (c : Nat) :
    ∀ n r, openRowFrom g c n = some r →
      r < n ∧ cellAt g r c = none ∧
      ∀ r2, r < r2 → r2 < n → (cellAt g r2 c).isSome = true
  | 0, r, h => by simp [openRowFrom] at h
  | n + 1, r, h => by
      rw [openRowFrom] at h
      split at h
      · rename_i hocc
        obtain ⟨h1, h2, h3⟩ := openRowFrom_char g c n r h
        refine ⟨by omega, h2, fun r2 hr2 hr2n => ?_⟩
        rcases Nat.lt_or_ge r2 n with hlt | hge
        · exact h3 r2 hr2 hlt
        · have : r2 = n := by omega
          subst this
          exact hocc
      · rename_i hemp
        obtain rfl : n = r := by injection h
        refine ⟨by omega, ?_, fun r2 hr2 hr2n => by omega⟩
        cases hcell : cellAt g n c with
        | none => rfl
        | some p =>
            rw [hcell] at hemp
            simp at hemp

theorem cellAt_setCell_self (g : List (List (Option Player))) (r c : Nat) (v : Option Player)
    (hr : r < g.length) (hc : c < (g.getD r []).length) :
    cellAt (setCell g r c v) r c = v := by
  unfold cellAt setCell
  simp [List.getD_eq_getElem?_getD, List.getElem?_set_self hr,
    List.getElem?_set_self (by simpa using hc)]

theorem cellAt_setCell_other (g : List (List (Option Player))) (r c : Nat) (v : Option Player)
    (r2 c2 : Nat) (h : ¬(r2 = r ∧ c2 = c)) :
    cellAt (setCell g r c v) r2 c2 = cellAt g r2 c2 := by
  unfold cellAt setCell
  by_cases hr : r2 = r
  · subst hr
    have hc : c2 ≠ c := fun hcc => h ⟨rfl, hcc⟩
    by_cases hrl : r2 < g.length
    · simp [List.getD_eq_getElem?_getD, List.getElem?_set_self hrl,
        List.getElem?_set_ne (Ne.symm hc)]
    · rw [List.set_eq_of_length_le (by omega)]
  · simp [List.getD_eq_getElem?_getD, List.getElem?_set_ne (Ne.symm hr)]

/-- On a well-formed board, placing in an in-range, non-full column
succeeds, writing the active player's piece at the found open row. -/
theorem place_piece_succeeds (b : Board) (hwf : WF b) (c : Nat) (hc : c < b.columns)
    (hnf : b.column_is_full c = false) :
    ∃ r, b.next_open_row c = some r ∧
      b.place_piece (Int.ofNat c) =
        (none, { b with grid := setCell b.grid r c (some b.active_player) }) := by
  obtain ⟨r, hr⟩ := openRowFrom_some b.grid c b.rows
    (by simpa [Board.column_is_full] using hnf) hwf.2.2
  have hnext : b.next_open_row c = some r := by
    unfold Board.next_open_row
    rw [if_neg (by simp [hnf]), hr]
  refine ⟨r, hnext, ?_⟩
  unfold Board.place_piece
  rw [if_neg (by simp; omega)]
  rw [show (Int.ofNat c).toNat = c from rfl, hnext]

theorem filterMap_eq_map_filter {α β : Type} (f : α → Option β) (p : α → Bool) (g : α → β) :
    ∀ (l : List α), (∀ c ∈ l, (p c = false → f c = none) ∧ (p c = true → f c = some (g c))) →
      l.filterMap f = (l.filter p).map g
  | [], _ => rfl
  | a :: l, h => by
      have ha := h a (List.mem_cons_self a l)
      have ih := filterMap_eq_map_filter f p g l fun c hc => h c (List.mem_cons_of_mem a hc)
      cases hp : p a with
      | false => rw [List.filterMap_cons, ha.1 hp, List.filter_cons_of_neg (by simp [hp]), ih]
      | true =>
          rw [List.filterMap_cons, ha.2 hp, List.filter_cons_of_pos (by simp [hp]),
            List.map_cons, ih]

/-- C6: on a well-formed board, (i) the column search order is a
permutation of the column indices, (ii) it is ordered by ascending
distance from the middle column with ties broken by ascending column
index, (iii) `successors` yields exactly one new position per non-full
column, in that order, built by `place_piece` then `change_turn`, and
(iv) every yielded position differs from the input only in one cell —
the lowest open cell of its column, which now holds the active player's
piece — and in the flipped active-player indicator; dimensions and
players are unchanged.  (The enumeration itself never mutates the input
board: each successor is built from a copy.) -/
theorem C6_successor_enumeration (b : Board) (hwf : WF b) :
    b.column_search_order.Perm (List.range b.columns) ∧
    b.column_search_order.Pairwise (lexLT b.columns) ∧
    b.successors =
      (b.column_search_order.filter fun c => !b.column_is_full c).map
        (fun c => ((b.place_piece (Int.ofNat c)).2).change_turn) ∧
    (∀ s ∈ b.successors, ∃ c r, c < b.columns ∧ b.column_is_full c = false ∧
      b.next_open_row c = some r ∧ r < b.rows ∧ cellAt b.grid r c = none ∧
      (∀ r2, r < r2 → r2 < b.rows → (cellAt b.grid r2 c).isSome = true) ∧
      s.rows = b.rows ∧ s.columns = b.columns ∧ s.players = b.players ∧
      s.active_player_index = 1 - b.active_player_index ∧
      cellAt s.grid r c = some b.active_player ∧
      (∀ r2 c2, ¬(r2 = r ∧ c2 = c) → cellAt s.grid r2 c2 = cellAt b.grid r2 c2)) := by
  have hperm : b.column_search_order.Perm (List.range b.columns) :=
    List.perm_insertionSort _ _
  have hmemcol : ∀ c ∈ b.column_search_order, c < b.columns := by
    intro c hc
    have := hperm.mem_iff.mp hc
    simpa using this
  have hmap : b.successors =
      (b.column_search_order.filter fun c => !b.column_is_full c).map
        (fun c => ((b.place_piece (Int.ofNat c)).2).change_turn) := by
    unfold Board.successors
    refine filterMap_eq_map_filter _ _ _ _ fun c hc => ⟨fun hful => ?_, fun hnf => ?_⟩
    · rw [if_pos (by simpa using hful)]
    · have hnf2 : b.column_is_full c = false := by simpa using hnf
      obtain ⟨r, _, hplace⟩ := place_piece_succeeds b hwf c (hmemcol c hc) hnf2
      rw [if_neg (by simp [hnf2]), hplace]
  refine ⟨hperm, pairwise_lex_insertionSort b.columns _ (List.pairwise_lt_range b.columns),
    hmap, ?_⟩
  intro s hs
  rw [hmap] at hs
  obtain ⟨c, hcmem, rfl⟩ := List.mem_map.mp hs
  obtain ⟨hcord, hnf⟩ : c ∈ b.column_search_order ∧ (!b.column_is_full c) = true :=
    List.mem_filter.mp hcmem
  have hnf2 : b.column_is_full c = false := by simpa using hnf
  have hc : c < b.columns := hmemcol c hcord
  obtain ⟨r, hnext, hplace⟩ := place_piece_succeeds b hwf c hc hnf2
  obtain ⟨hrn, hempty, habove⟩ := openRowFrom_char b.grid c b.rows r
    (by
      unfold Board.next_open_row at hnext
      rw [if_neg (by simp [hnf2])] at hnext
      exact hnext)
  have hrow_len : (b.grid.getD r []).length = b.columns := by
    have hrl : r < b.grid.length := by rw [hwf.1]; exact hrn
    have hmem : b.grid.getD r [] ∈ b.grid := by
      rw [List.getD_eq_getElem?_getD, List.getElem?_eq_getElem hrl]
      exact List.getElem_mem hrl
    exact hwf.2.1 _ hmem
  refine ⟨c, r, hc, hnf2, hnext, hrn, hempty, habove, ?_⟩
  rw [hplace]
  refine ⟨rfl, rfl, rfl, rfl, ?_, ?_⟩
  · exact cellAt_setCell_self b.grid r c _ (by rw [hwf.1]; exact hrn) (by rw [hrow_len]; exact hc)
  · intro r2 c2 hne
    exact cellAt_setCell_other b.grid r c _ r2 c2 hne

/-- Witness for C6 on the 1×5 board `[X . . . .]`. -/
theorem C6_successor_enumeration_witness :
    WF bX0 ∧
    (bX0.column_search_order.Perm (List.range bX0.columns) ∧
    bX0.column_search_order.Pairwise (lexLT bX0.columns) ∧
    bX0.successors =
      (bX0.column_search_order.filter fun c => !bX0.column_is_full c).map
        (fun c => ((bX0.place_piece (Int.ofNat c)).2).change_turn) ∧
    (∀ s ∈ bX0.successors, ∃ c r, c < bX0.columns ∧ bX0.column_is_full c = false ∧
      bX0.next_open_row c = some r ∧ r < bX0.rows ∧ cellAt bX0.grid r c = none ∧
      (∀ r2, r < r2 → r2 < bX0.rows → (cellAt bX0.grid r2 c).isSome = true) ∧
      s.rows = bX0.rows ∧ s.columns = bX0.columns ∧ s.players = bX0.players ∧
      s.active_player_index = 1 - bX0.active_player_index ∧
      cellAt s.grid r c = some bX0.active_player ∧
      (∀ r2 c2, ¬(r2 = r ∧ c2 = c) → cellAt s.grid r2 c2 = cellAt bX0.grid r2 c2))) :=
  ⟨by decide, C6_successor_enumeration bX0 (by decide)⟩

/-! ### C2 -/

theorem windows_length (b : Board) : ∀ g ∈ b.windows, g.length = SEQ_LENGTH := by
  intro g hg
  unfold Board.windows at hg
  simp only [List.mem_append, List.mem_flatMap, List.mem_map] at hg
  rcases hg with ((⟨row, hrow, col, hcol, rfl⟩ | ⟨row, hrow, col, hcol, rfl⟩) |
    ⟨row, hrow, col, hcol, rfl⟩) | ⟨row, hrow, col, hcol, rfl⟩
  all_goals simp

theorem POINTS_nonneg (p : Nat × Nat) : 0 ≤ POINTS_BY_COUNT p := by
  unfold POINTS_BY_COUNT VICTORY_VALUE
  split
  · norm_num
  · split
    · norm_num
    · split
      · norm_num
      · split
        · norm_num
        · norm_num

theorem POINTS_le_300 (p : Nat × Nat) (h : p.1 ≠ SEQ_LENGTH) : POINTS_BY_COUNT p ≤ 300 := by
  unfold POINTS_BY_COUNT
  rw [if_neg fun hp => h (by rw [hp])]
  split
  · norm_num
  · split
    · norm_num
    · split
      · norm_num
      · norm_num

theorem count_symbol_le (p : Player) (g : List (Option Player)) :
    count_symbol p g ≤ g.length := by
  unfold count_symbol
  exact le_trans (List.countP_le_length _) (List.length_filterMap_le _ _)

/-- A window of length 4 with four cells matching `p`'s symbol has no
cell matching a symbol different from `p`'s. -/
theorem count_other_eq_zero (p q : Player) (g : List (Option Player))
    (hlen : g.length = SEQ_LENGTH) (hpq : q.symbol ≠ p.symbol)
    (hc : count_symbol p g = SEQ_LENGTH) :
    count_symbol q g = 0 := by
  have hfl : (g.filterMap id).length ≤ SEQ_LENGTH := by
    rw [← hlen]
    exact List.length_filterMap_le _ _
  have hcl : count_symbol p g ≤ (g.filterMap id).length := List.countP_le_length _
  have hleq : (g.filterMap id).length = SEQ_LENGTH := by omega
  have hall : ∀ a ∈ g.filterMap id, a.peq p = true := by
    apply List.countP_eq_length.mp
    rw [hleq]
    exact hc
  unfold count_symbol
  apply List.countP_eq_zero.mpr
  intro a ha
  have hap : a.symbol = p.symbol := by
    have := hall a ha
    unfold Player.peq at this
    simpa using this
  unfold Player.peq
  simp only [beq_iff_eq, hap]
  exact fun hh => hpq hh.symm

/-- Score of an all-`p` window: the doubled victory sentinel, signed by
which of the two players `p` is. -/
theorem score_group_of_four (b : Board) (g : List (Option Player))
    (hlen : g.length = SEQ_LENGTH) (hsym : b.players.1.symbol ≠ b.players.2.symbol) :
    (count_symbol b.players.1 g = SEQ_LENGTH → b.score_group g = 2 * VICTORY_VALUE) ∧
    (count_symbol b.players.2 g = SEQ_LENGTH → b.score_group g = -(2 * VICTORY_VALUE)) := by
  constructor
  · intro hc
    have h0 := count_other_eq_zero b.players.1 b.players.2 g hlen hsym.symm hc
    unfold Board.score_group
    rw [hc, h0]
    unfold POINTS_BY_COUNT SEQ_LENGTH
    norm_num
  · intro hc
    have h0 := count_other_eq_zero b.players.2 b.players.1 g hlen hsym hc
    unfold Board.score_group
    rw [hc, h0]
    unfold POINTS_BY_COUNT SEQ_LENGTH
    norm_num

theorem score_group_bounds (b : Board) (g : List (Option Player)) :
    (count_symbol b.players.2 g ≠ SEQ_LENGTH → -300 ≤ b.score_group g) ∧
    (count_symbol b.players.1 g ≠ SEQ_LENGTH → b.score_group g ≤ 300) := by
  constructor
  · intro h
    unfold Board.score_group
    dsimp only
    have h1 := POINTS_nonneg (count_symbol b.players.1 g, count_symbol b.players.2 g)
    have h2 := POINTS_le_300 (count_symbol b.players.2 g, count_symbol b.players.1 g) h
    omega
  · intro h
    unfold Board.score_group
    dsimp only
    have h1 := POINTS_le_300 (count_symbol b.players.1 g, count_symbol b.players.2 g) h
    have h2 := POINTS_nonneg (count_symbol b.players.2 g, count_symbol b.players.1 g)
    omega

theorem sum_lb (a : Int) :
    ∀ (L : List Int), (∀ y ∈ L, a ≤ y) → a * L.length ≤ L.sum
  | [], _ => by simp
  | x :: L, h => by
      rw [List.sum_cons, List.length_cons]
      have h1 := h x (List.mem_cons_self x L)
      have h2 := sum_lb a L fun y hy => h y (List.mem_cons_of_mem x hy)
      push_cast
      nlinarith [h1, h2]

theorem sum_ub (a : Int) :
    ∀ (L : List Int), (∀ y ∈ L, y ≤ a) → L.sum ≤ a * L.length
  | [], _ => by simp
  | x :: L, h => by
      rw [List.sum_cons, List.length_cons]
      have h1 := h x (List.mem_cons_self x L)
      have h2 := sum_ub a L fun y hy => h y (List.mem_cons_of_mem x hy)
      push_cast
      nlinarith [h1, h2]

/-- Counterexample to C2 as stated: a full board whose column 0 holds
four `X`s.  The heuristic short-circuits to 0 because every column is
full, so `status()` is TIE, not a win for the first player, and the
heuristic magnitude is 0, below the victory sentinel. -/
theorem C2_counterexample :
    bFullFour.has_four bFullFour.players.1 = true ∧
    bFullFour.status ≠ Status.PLAYER_1_WINS ∧
    bFullFour.heuristic_value = 0 := by
  refine ⟨by decide, by decide, by decide⟩

/-- C2 (amended): in a position that is not an all-columns-full draw,
whose two player symbols differ, and whose window count satisfies
`300 * #windows ≤ victory sentinel + 300` (true for the reference 6×7
board, whose 69 windows give 20700 ≤ 10^8 + 300), a four-in-a-row for
one player — the opponent having none — makes `heuristicValue` reach
the victory sentinel in that player's direction and `status()` report
that player's win. -/
theorem C2_four_in_a_row_wins (b : Board)
    (hsym : b.players.1.symbol ≠ b.players.2.symbol)
    (hnd : b.check_for_draw = false)
    (hsize : 300 * (b.windows.length : Int) ≤ VICTORY_VALUE + 300) :
    (b.has_four b.players.1 = true → b.has_four b.players.2 = false →
      VICTORY_VALUE ≤ b.heuristic_value ∧ b.status = Status.PLAYER_1_WINS) ∧
    (b.has_four b.players.2 = true → b.has_four b.players.1 = false →
      b.heuristic_value ≤ LOSS_VALUE ∧ b.status = Status.PLAYER_2_WINS) := by
  have hVpos : (0 : Int) < VICTORY_VALUE := by
    unfold VICTORY_VALUE
    norm_num
  have hfour : ∀ p : Player, b.has_four p = true →
      ∃ g ∈ b.windows, count_symbol p g = SEQ_LENGTH := by
    intro p hp
    unfold Board.has_four at hp
    obtain ⟨g, hg, hcnt⟩ := List.any_eq_true.mp hp
    exact ⟨g, hg, by simpa using hcnt⟩
  have hnofour : ∀ p : Player, b.has_four p = false →
      ∀ g ∈ b.windows, count_symbol p g ≠ SEQ_LENGTH := by
    intro p hp g hg hcnt
    unfold Board.has_four at hp
    rw [List.any_eq_false] at hp
    exact hp g hg (by simpa using hcnt)
  have hheur : b.heuristic_value = (b.windows.map b.score_group).sum := by
    unfold Board.heuristic_value
    rw [if_neg (by simp [hnd])]
  constructor
  · intro h1 h2
    obtain ⟨g0, hg0, hc0⟩ := hfour _ h1
    have hbig : b.score_group g0 = 2 * VICTORY_VALUE :=
      (score_group_of_four b g0 (windows_length b g0 hg0) hsym).1 hc0
    have hlb : ∀ y ∈ b.windows.map b.score_group, -300 ≤ y := by
      intro y hy
      obtain ⟨g, hg, rfl⟩ := List.mem_map.mp hy
      exact (score_group_bounds b g).1 (hnofour _ h2 g hg)
    obtain ⟨s, t, hst⟩ := List.append_of_mem (List.mem_map_of_mem b.score_group hg0)
    have hlen : (b.windows.length : Int) = s.length + t.length + 1 := by
      have := congrArg List.length hst
      rw [List.length_map] at this
      rw [this]
      push_cast [List.length_append, List.length_cons]
      ring
    have hge : VICTORY_VALUE ≤ b.heuristic_value := by
      rw [hheur, hst, List.sum_append, List.sum_cons, hbig]
      have hs := sum_lb (-300) s fun y hy => hlb y (hst ▸ List.mem_append_left _ hy)
      have ht := sum_lb (-300) t fun y hy =>
        hlb y (hst ▸ List.mem_append_right _ (List.mem_cons_of_mem _ hy))
      rw [hlen] at hsize
      linarith
    refine ⟨hge, ?_⟩
    unfold Board.status
    rw [if_pos hge]
  · intro h1 h2
    obtain ⟨g0, hg0, hc0⟩ := hfour _ h1
    have hbig : b.score_group g0 = -(2 * VICTORY_VALUE) :=
      (score_group_of_four b g0 (windows_length b g0 hg0) hsym).2 hc0
    have hub : ∀ y ∈ b.windows.map b.score_group, y ≤ 300 := by
      intro y hy
      obtain ⟨g, hg, rfl⟩ := List.mem_map.mp hy
      exact (score_group_bounds b g).2 (hnofour _ h2 g hg)
    obtain ⟨s, t, hst⟩ := List.append_of_mem (List.mem_map_of_mem b.score_group hg0)
    have hlen : (b.windows.length : Int) = s.length + t.length + 1 := by
      have := congrArg List.length hst
      rw [List.length_map] at this
      rw [this]
      push_cast [List.length_append, List.length_cons]
      ring
    have hle : b.heuristic_value ≤ LOSS_VALUE := by
      rw [hheur, hst, List.sum_append, List.sum_cons, hbig]
      have hs := sum_ub 300 s fun y hy => hub y (hst ▸ List.mem_append_left _ hy)
      have ht := sum_ub 300 t fun y hy =>
        hub y (hst ▸ List.mem_append_right _ (List.mem_cons_of_mem _ hy))
      rw [hlen] at hsize
      unfold LOSS_VALUE
      linarith
    refine ⟨hle, ?_⟩
    unfold Board.status
    rw [if_neg (by unfold LOSS_VALUE at hle; omega), if_pos hle]

/-- Witness for C2 (amended) on the non-drawn four-in-a-row board. -/
theorem C2_four_in_a_row_wins_witness :
    bWinFour.players.1.symbol ≠ bWinFour.players.2.symbol ∧
    bWinFour.check_for_draw = false ∧
    300 * (bWinFour.windows.length : Int) ≤ VICTORY_VALUE + 300 ∧
    bWinFour.has_four bWinFour.players.1 = true ∧
    bWinFour.has_four bWinFour.players.2 = false ∧
    (VICTORY_VALUE ≤ bWinFour.heuristic_value ∧ bWinFour.status = Status.PLAYER_1_WINS) :=
  ⟨by decide, by decide, by decide, by decide, by decide,
   (C2_four_in_a_row_wins bWinFour (by decide) (by decide) (by decide)).1
     (by decide) (by decide)⟩

/-! ### C1 -/

/-- C1: the default for the `maximizing` parameter is
`not board.active_player`, applied to a `Player` object that is always
truthy, so the default is `False` even when the first (maximizing)
player is active: on the 1×5 board `[X . . . .]` with the first player
to move, the unspecified-`maximizing` call behaves like
`maximizing=False` (value 20, move in the rightmost column) and differs
from `maximizing=True` (value 60, move in the centre column), although
the docstring promises a default "based on the active_player". -/
theorem C1_default_maximizing_ignores_active_player :
    defaultMaximizing bX0 = false ∧
    bX0.player_1_is_active = true ∧
    (minimax bX0 none 1 .negInf .posInf emptyTable).1 =
      (minimax bX0 (some false) 1 .negInf .posInf emptyTable).1 ∧
    (minimax bX0 none 1 .negInf .posInf emptyTable).1 ≠
      (minimax bX0 (some true) 1 .negInf .posInf emptyTable).1 := by
  refine ⟨rfl, rfl, rfl, ?_⟩
  decide

/-! ### C3 -/

/-- Counterexample to C3 as stated: with a cache already holding an
exact entry (value 42, no move) for the position's key, `minimax` at
depth 0 returns that cached pair, not
`(heuristicValue(position), position)`. -/
theorem C3_counterexample :
    (minimax bX0 none 0 .negInf .posInf
      { maxsize := 8192, entries := [(bX0.key, ⟨Ext.val 42, none, false, false⟩)] }).1 ≠
      (Ext.val bX0.heuristic_value, some bX0) := by
  decide

/-- C3 (amended): for every position, search arguments and cache state
holding no entry for the position's key, `minimax` at depth 0 returns
exactly `(heuristicValue(position), position)`, with the cache
unchanged. -/
theorem C3_depth_zero_returns_heuristic (b : Board) (m? : Option Bool)
    (alpha beta : Ext) (tt : TranspositionTable)
    (hmiss : findEntry tt b.key = none) :
    minimax b m? 0 alpha beta tt = ((Ext.val b.heuristic_value, some b), tt) := by
  unfold minimax
  rw [probe_miss alpha beta hmiss]

/-- Witness for C3: depth-0 search of the 1×5 board against the empty
table returns its heuristic value (10) and the board itself. -/
theorem C3_depth_zero_returns_heuristic_witness :
    findEntry emptyTable bX0.key = none ∧
    minimax bX0 none 0 .negInf .posInf emptyTable =
      ((Ext.val bX0.heuristic_value, some bX0), emptyTable) :=
  ⟨rfl, C3_depth_zero_returns_heuristic bX0 none .negInf .posInf emptyTable rfl⟩

end Connect4
